import Mathlib

/-!
Shallow embedding of the grid-manager core of DDuarte/EIC0013-AEDA-Proj1.

The authoritative source is `src/src/gridmanager.cpp`.  The collaborator
classes (`User`, `Machine`, `Job`, `ByteBuffer`) are not part of the
provided sources; they are modelled from the spec where needed, and each
such definition says so in its doc comment.

`std::map<uint, T*>` registries are modelled as association lists sorted
strictly ascending by key (the iteration order of `std::map`).  Pointers
become values; a nullable pointer argument becomes `Option`.  The
process-wide `static uint GridManager::_lastUserId/_lastMachineId`
counters are modelled as a `Counters` value threaded separately from the
`GridManager` value, mirroring the fact that they are not per-instance
fields.  `uint` is a typedef from a header not in the sources; following
the spec ("monotonically increasing counters", ids "never repeat within
the process lifetime") it is modelled as an unbounded natural number,
while the snapshot codec's `WriteUInt32` (whose width is pinned by its
name) truncates to 32 bits.
-/

/-- Insertion into a key-sorted association list, overwriting the value
when the key is already present: the behaviour of `std::map::operator[]`
assignment used by the registries. -/
def mapInsert {α : Type} (k : Nat) (v : α) : List (Nat × α) → List (Nat × α)
  | [] => [(k, v)]
  | (k', v') :: rest =>
    if k < k' then (k, v) :: (k', v') :: rest
    else if k = k' then (k, v) :: rest
    else (k', v') :: mapInsert k v rest

/-- Model of `std::map::erase` after a successful `find`: removes the (unique)
entry with the given key, if any. -/
def mapErase {α : Type} (k : Nat) : List (Nat × α) → List (Nat × α)
  | [] => []
  | (k', v') :: rest => if k = k' then rest else (k', v') :: mapErase k rest

/-- Model of `std::map::find`, as an optional lookup. -/
def mapFind {α : Type} (k : Nat) : List (Nat × α) → Option α
  | [] => none
  | (k', v') :: rest => if k = k' then some v' else mapFind k rest

/-- The keys of an association list, in iteration order. -/
def mapKeys {α : Type} (l : List (Nat × α)) : List Nat := l.map Prod.fst

/-- Well-formedness of the association-list model of `std::map`: keys are
strictly ascending (hence unique), as in the real container's iteration
order. -/
def mapSorted {α : Type} (l : List (Nat × α)) : Prop :=
  (mapKeys l).Pairwise (· < ·)

instance {α : Type} (l : List (Nat × α)) : Decidable (mapSorted l) := by
  unfold mapSorted
  infer_instance

/-- Modelled from the spec: a `Job` is a "submitted unit of work with at
least a display name"; machines hold an "owned mapping from job identifier
to accepted Job".  The display name is abstracted to a numeric code (it
only feeds the diagnostic log, which is "never part of the functional
contract"). -/
structure Job where
  id : Nat
  name : Nat
  deriving DecidableEq, Repr

/-- Modelled from the spec: a `User` has an "identifier (unsigned integer,
0 = unassigned/sentinel)" and "opaque authorization state consulted via
`CanCreateJob`", and is "notified of successful submissions via
`CreatedJob`" (bookkeeping of jobs it has created).  The opaque
authorization state is abstracted to a boolean `perm`; the bookkeeping to
the list of created job ids. -/
structure User where
  id : Nat
  perm : Bool
  createdJobs : List Nat
  deriving DecidableEq, Repr

/-- Modelled from the spec: `CanCreateJob(job) -> allowed?` consults the
user's opaque authorization state. -/
def User.CanCreateJob (u : User) (_j : Job) : Bool := u.perm

/-- Modelled from the spec: `CreatedJob(job)` records a successful
submission in the user's bookkeeping. -/
def User.CreatedJob (u : User) (j : Job) : User :=
  { u with createdJobs := u.createdJobs ++ [j.id] }

/-- Modelled from the spec: a `Machine` has an identifier (same sentinel
rule as users), capacity attributes ("max concurrent jobs, current job
count, available disk, available RAM"), and "an owned mapping from job
identifier to accepted Job" (sorted association list, as for the
registries). -/
structure Machine where
  id : Nat
  name : Nat
  maxJobs : Nat
  currentJobs : Nat
  availableDiskSpace : Nat
  availableRAM : Nat
  jobs : List (Nat × Job)
  deriving DecidableEq, Repr

/-- The ranking score from `GridManager::AddJob` (gridmanager.cpp:163):
`(GetMaxJobs() - GetCurrentJobs()) + GetAvailableDiskSpace() +
GetAvailableRAM()`, computed over the integers. -/
def Machine.score (m : Machine) : Int :=
  ((m.maxJobs : Int) - (m.currentJobs : Int))
    + (m.availableDiskSpace : Int) + (m.availableRAM : Int)

/-- Modelled from the spec: `Machine::AddJob(job) -> accepted?` is not in
the provided sources; the machine "independently decides acceptance (e.g.,
against its own remaining capacity)".  It accepts exactly when it has a
free job slot, storing the job in its owned mapping and bumping the
current job count; `none` means the offer was rejected. -/
def Machine.AddJob (m : Machine) (j : Job) : Option Machine :=
  if m.currentJobs < m.maxJobs then
    some { m with
            jobs := mapInsert j.id j m.jobs,
            currentJobs := m.currentJobs + 1 }
  else
    none

/-- The grid manager's state apart from the two static counters: the two
id-keyed registries (`_users`, `_machines` in gridmanager.h), modelled as
key-sorted association lists. -/
structure GridManager where
  users : List (Nat × User)
  machines : List (Nat × Machine)
  deriving DecidableEq, Repr

/-- The process-wide static members `GridManager::_lastUserId` and
`GridManager::_lastMachineId` (gridmanager.cpp:12-13).  They are not
per-instance fields, so they live outside `GridManager` and are threaded
explicitly through every operation that touches them. -/
structure Counters where
  lastUserId : Nat
  lastMachineId : Nat
  deriving DecidableEq, Repr

/-- A freshly constructed grid manager (empty registries). -/
def GridManager.empty : GridManager := ⟨[], []⟩

/-- Embedding of `GridManager::AddUser` (gridmanager.cpp:243-259): null argument
returns sentinel id 0; a nonzero preset id is inserted verbatim
(reconstruction path, counter untouched); otherwise the counter is
incremented, the entity stamped with the new id, inserted, and the new id
returned. -/
def GridManager.AddUser (gm : GridManager) (c : Counters) (user : Option User) :
    GridManager × Counters × Nat :=
  match user with
  | none => (gm, c, 0)
  | some u =>
    if u.id ≠ 0 then
      ({ gm with users := mapInsert u.id u gm.users }, c, u.id)
    else
      let nid := c.lastUserId + 1
      ({ gm with users := mapInsert nid { u with id := nid } gm.users },
       { c with lastUserId := nid }, nid)

/-- Embedding of `GridManager::AddMachine` (gridmanager.cpp:261-277), symmetric to
`AddUser`. -/
def GridManager.AddMachine (gm : GridManager) (c : Counters) (machine : Option Machine) :
    GridManager × Counters × Nat :=
  match machine with
  | none => (gm, c, 0)
  | some m =>
    if m.id ≠ 0 then
      ({ gm with machines := mapInsert m.id m gm.machines }, c, m.id)
    else
      let nid := c.lastMachineId + 1
      ({ gm with machines := mapInsert nid { m with id := nid } gm.machines },
       { c with lastMachineId := nid }, nid)

/-- Embedding of `GridManager::RemoveUser(uint id)` (gridmanager.cpp:70-80): lookup,
erase on success, report whether an entry was found. -/
def GridManager.RemoveUser (gm : GridManager) (id : Nat) : GridManager × Bool :=
  match mapFind id gm.users with
  | none => (gm, false)
  | some _ => ({ gm with users := mapErase id gm.users }, true)

/-- Embedding of `GridManager::RemoveMachine(uint id)` (gridmanager.cpp:94-104). -/
def GridManager.RemoveMachine (gm : GridManager) (id : Nat) : GridManager × Bool :=
  match mapFind id gm.machines with
  | none => (gm, false)
  | some _ => ({ gm with machines := mapErase id gm.machines }, true)

/-- Embedding of `GridManager::GetUser` (gridmanager.cpp:106-114): pure lookup, `none`
models the `NULL` result. -/
def GridManager.GetUser (gm : GridManager) (id : Nat) : Option User :=
  mapFind id gm.users

/-- Embedding of `GridManager::GetMachine` (gridmanager.cpp:116-123). -/
def GridManager.GetMachine (gm : GridManager) (id : Nat) : Option Machine :=
  mapFind id gm.machines

/-- The machine registry's values in iteration (ascending-id) order: the
`std::transform` at gridmanager.cpp:158-159. -/
def GridManager.machineList (gm : GridManager) : List Machine :=
  gm.machines.map Prod.snd

/-- One insertion step of a stable descending-by-score sort: the inserted
machine goes after every machine that strictly beats its score and before
the first one that does not. -/
def insertByScore (m : Machine) : List Machine → List Machine
  | [] => [m]
  | x :: xs => if x.score > m.score then x :: insertByScore m xs else m :: x :: xs

/-- Embedding of `machineList.sort` with comparator `score1 > score2`
(gridmanager.cpp:162-167).  `std::list::sort` is guaranteed stable, so it
is modelled by a stable insertion sort: equal-score machines keep their
relative registry order. -/
def sortByScore : List Machine → List Machine
  | [] => []
  | x :: xs => insertByScore x (sortByScore xs)

/-- The offer loop of `GridManager::AddJob` (gridmanager.cpp:169-176):
offer the job to each ranked machine in turn; stop at the first acceptor.
Returns the updated acceptor (if any) and the trace of machine ids that
were offered the job, in order. -/
def offerLoop (j : Job) : List Machine → Option Machine × List Nat
  | [] => (none, [])
  | m :: ms =>
    match m.AddJob j with
    | some m' => (some m', [m.id])
    | none =>
      let r := offerLoop j ms
      (r.1, m.id :: r.2)

/-- Embedding of `GridManager::AddJob` (gridmanager.cpp:150-179): reject a null job,
rank the machine registry by descending score (stable), offer in ranked
order, commit to the first acceptor.  The returned list is the trace of
offered machine ids (the order of `(*it)->AddJob(job)` calls). -/
def GridManager.AddJob (gm : GridManager) (job : Option Job) :
    GridManager × Bool × List Nat :=
  match job with
  | none => (gm, false, [])
  | some j =>
    match offerLoop j (sortByScore gm.machineList) with
    | (some m', tr) => ({ gm with machines := mapInsert m'.id m' gm.machines }, true, tr)
    | (none, tr) => (gm, false, tr)

/-- Embedding of `GridManager::AddJobByUser` (gridmanager.cpp:181-198): reject null
user, then null job; consult `CanCreateJob`; on authorization delegate to
`AddJob`; only on successful placement invoke `CreatedJob`.  The C++
mutates the user object in place; here the (possibly updated) user value
is returned alongside the manager, the success flag, and the offer
trace. -/
def GridManager.AddJobByUser (gm : GridManager) (user : Option User) (job : Option Job) :
    GridManager × Option User × Bool × List Nat :=
  match user with
  | none => (gm, none, false, [])
  | some u =>
    match job with
    | none => (gm, some u, false, [])
    | some j =>
      if ¬ u.CanCreateJob j then (gm, some u, false, [])
      else
        match gm.AddJob (some j) with
        | (gm', true, tr) => (gm', some (u.CreatedJob j), true, tr)
        | (gm', false, tr) => (gm', some u, false, tr)

/-- The entity kinds at which the generic `ApplyPredicate<T>` template can
be instantiated: the three explicitly specialised kinds, and `qother`
standing for any other type `T` (whose carrier is irrelevant and is
modelled as `Unit`). -/
inductive QueryKind
  | quser
  | qmachine
  | qjob
  | qother
  deriving DecidableEq, Repr

/-- The entity type queried at each kind. -/
def QueryKind.Entity : QueryKind → Type
  | .quser => User
  | .qmachine => Machine
  | .qjob => Job
  | .qother => Unit

/-- Embedding of `GridManager::ApplyPredicate<T>` (gridmanager.cpp:200-241): the
`User`/`Machine` specialisations scan their registry and collect matches;
the `Job` specialisation scans every machine's owned job map and
aggregates matches; the primary template (any other `T`,
gridmanager.cpp:200-204) returns an empty vector. -/
def GridManager.ApplyPredicate (gm : GridManager) :
    (k : QueryKind) → (k.Entity → Bool) → List k.Entity
  | .quser, p => (gm.users.map Prod.snd).filter p
  | .qmachine, p => (gm.machines.map Prod.snd).filter p
  | .qjob, p =>
      (gm.machines.map Prod.snd).flatMap (fun m => (m.jobs.map Prod.snd).filter p)
  | .qother, _ => []

/-- Modelled from the spec: the `ByteBuffer` is a flat sequence of
values; `WriteUInt32` appends one 32-bit word, so the written value is
truncated modulo `2 ^ 32`.  The buffer is modelled as the list of words
written. -/
def w32 (v : Nat) : List Nat := [v % 2 ^ 32]

/-- Embedding of `GridManager::Save` (gridmanager.cpp:24-38): writes `lastUserId`,
`lastMachineId`, the user count followed by each user's own record, then
the machine count followed by each machine's own record.  Each entity
record's encoding is owned by the entity (`user.second->Save(bb)`), so the
entity encoders are parameters. -/
def GridManager.Save (uSave : User → List Nat) (mSave : Machine → List Nat)
    (c : Counters) (gm : GridManager) : List Nat :=
  w32 c.lastUserId ++ w32 c.lastMachineId
    ++ w32 gm.users.length ++ (gm.users.flatMap fun p => uSave p.2)
    ++ w32 gm.machines.length ++ (gm.machines.flatMap fun p => mSave p.2)

/-- A count-prefixed repetition of records, decoded one at a time: the
`for (uint32 i = 0; i < count; ++i)` loops of `GridManager::Load`.
`none` models reading past the end of the buffer. -/
def loadMany {α : Type} (loadOne : List Nat → Option (α × List Nat)) :
    Nat → List Nat → Option (List α × List Nat)
  | 0, bb => some ([], bb)
  | n + 1, bb => do
    let (x, bb₁) ← loadOne bb
    let (xs, bb₂) ← loadMany loadOne n bb₁
    some (x :: xs, bb₂)

/-- The `gm->AddUser(User::Load(bb))` loop of `GridManager::Load`:
register each decoded user through the registry's reconstruction path. -/
def addAllUsers : GridManager → Counters → List User → GridManager × Counters
  | gm, c, [] => (gm, c)
  | gm, c, u :: us =>
    let r := gm.AddUser c (some u)
    addAllUsers r.1 r.2.1 us

/-- The `gm->AddMachine(Machine::Load(bb))` loop of `GridManager::Load`. -/
def addAllMachines : GridManager → Counters → List Machine → GridManager × Counters
  | gm, c, [] => (gm, c)
  | gm, c, m :: ms =>
    let r := gm.AddMachine c (some m)
    addAllMachines r.1 r.2.1 ms

/-- Embedding of `GridManager::Load` (gridmanager.cpp:40-56): construct a fresh
manager, restore the two static counters first, then restore users, then
machines, through `AddUser`/`AddMachine` (the preset-id reconstruction
path).  Returns the new manager together with the counters as left by the
loop (a zero-id record would bump them, exactly as in the C++). -/
def GridManager.Load (uLoad : List Nat → Option (User × List Nat))
    (mLoad : List Nat → Option (Machine × List Nat))
    (bb : List Nat) : Option (GridManager × Counters) :=
  match bb with
  | lu :: lm :: uc :: rest => do
    let (us, rest₁) ← loadMany uLoad uc rest
    match rest₁ with
    | mc :: rest₂ => do
      let (ms, _) ← loadMany mLoad mc rest₂
      let r₁ := addAllUsers GridManager.empty ⟨lu, lm⟩ us
      let r₂ := addAllMachines r₁.1 r₁.2 ms
      some (r₂.1, r₂.2)
    | [] => none
  | _ => none

/-- Modelled from the spec: a concrete `User::Save` ("`Save`/`Load` (own
encoding)" — the record layout is owned by the entity, opaque to the grid
manager), count-prefixing the bookkeeping list. -/
def User.Save (u : User) : List Nat :=
  u.id :: (cond u.perm 1 0) :: u.createdJobs.length :: u.createdJobs

/-- Reads `n` raw words from the buffer. -/
def readWords : Nat → List Nat → Option (List Nat × List Nat)
  | 0, bb => some ([], bb)
  | _ + 1, [] => none
  | n + 1, x :: bb => do
    let (xs, bb₁) ← readWords n bb
    some (x :: xs, bb₁)

/-- Modelled from the spec: the concrete `User::Load` matching
`User.Save`. -/
def User.Load : List Nat → Option (User × List Nat)
  | uid :: perm :: cnt :: rest => do
    let (js, rest₁) ← readWords cnt rest
    some (⟨uid, perm != 0, js⟩, rest₁)
  | _ => none

/-- Modelled from the spec: one entry of a machine's owned job map, as the
machine encodes it (key, then the job's fields). -/
def jobEntrySave (p : Nat × Job) : List Nat :=
  [p.1, p.2.id, p.2.name]

/-- Decoder matching `jobEntrySave`. -/
def jobEntryLoad : List Nat → Option ((Nat × Job) × List Nat)
  | k :: jid :: jname :: rest => some ((k, ⟨jid, jname⟩), rest)
  | _ => none

/-- Modelled from the spec: a concrete `Machine::Save` covering the
capacity attributes and the count-prefixed owned job map. -/
def Machine.Save (m : Machine) : List Nat :=
  m.id :: m.name :: m.maxJobs :: m.currentJobs
    :: m.availableDiskSpace :: m.availableRAM
    :: m.jobs.length :: m.jobs.flatMap jobEntrySave

/-- Modelled from the spec: the concrete `Machine::Load` matching
`Machine.Save`. -/
def Machine.Load : List Nat → Option (Machine × List Nat)
  | mid :: mname :: mx :: cur :: disk :: ram :: cnt :: rest => do
    let (js, rest₁) ← loadMany jobEntryLoad cnt rest
    some (⟨mid, mname, mx, cur, disk, ram, js⟩, rest₁)
  | _ => none

/-- Registry well-formedness: both registries are key-sorted maps, and
every stored entity carries its own (nonzero) key as its id — exactly
what `AddUser`/`AddMachine` establish on both of their insertion paths. -/
def GridManager.wf (gm : GridManager) : Prop :=
  mapSorted gm.users ∧ mapSorted gm.machines
    ∧ (∀ p ∈ gm.users, p.2.id = p.1 ∧ p.1 ≠ 0)
    ∧ (∀ p ∈ gm.machines, p.2.id = p.1 ∧ p.1 ≠ 0)

instance (gm : GridManager) : Decidable gm.wf := by
  unfold GridManager.wf mapSorted
  infer_instance

/-- The strict order the ranked machine list realises: strictly higher
score first, ties broken by strictly smaller (registration) id. -/
def schedLt (a b : Machine) : Prop :=
  b.score < a.score ∨ (a.score = b.score ∧ a.id < b.id)

instance (a b : Machine) : Decidable (schedLt a b) := by
  unfold schedLt
  infer_instance

/-- The ids of the machines whose owned job map contains the id of `j`:
the machines currently holding the job. -/
def holders (gm : GridManager) (j : Job) : List Nat :=
  (gm.machines.filter fun p => (mapFind j.id p.2.jobs).isSome).map Prod.fst

/-- The spec's ranking example, machine M1: registered first, score 10
(no job slots, 10 free disk), rejects every offer (no free slot). -/
def exM1 : Machine := ⟨1, 0, 0, 0, 10, 0, []⟩

/-- The spec's ranking example, machine M2: registered second, score 10
(10 free RAM), rejects every offer. -/
def exM2 : Machine := ⟨2, 0, 0, 0, 0, 10, []⟩

/-- The spec's ranking example, machine M3: registered third, score 5,
rejects every offer. -/
def exM3 : Machine := ⟨3, 0, 0, 0, 5, 0, []⟩

/-- A concrete job used by the examples. -/
def exJob : Job := ⟨7, 7⟩

/-- The spec's ranking example: M1 (score 10), M2 (score 10), M3
(score 5), registered in that order. -/
def gmRank : GridManager := ⟨[], [(1, exM1), (2, exM2), (3, exM3)]⟩

/-- A machine with one free job slot (score 1): the only acceptor in the
first-acceptor example. -/
def exAcc : Machine := ⟨2, 0, 1, 0, 0, 0, []⟩

/-- The machine `exAcc` after it accepted `exJob`. -/
def exAccUpd : Machine := ⟨2, 0, 1, 1, 0, 0, [(7, exJob)]⟩

/-- First-acceptor example: M1 (score 10) and M3 (score 5) reject, the
machine with id 2 (score 1) accepts. -/
def gmFirst : GridManager := ⟨[], [(1, exM1), (2, exAcc), (3, exM3)]⟩

/-- A user whose `CanCreateJob` denies. -/
def exUserDeny : User := ⟨1, false, []⟩

/-- A user whose `CanCreateJob` allows. -/
def exUserAllow : User := ⟨2, true, []⟩

/-- The manager `gmFirst` after machine 2 accepted `exJob`. -/
def gmFirstUpd : GridManager :=
  { gmFirst with machines := mapInsert exAcc.id exAccUpd gmFirst.machines }

/-- A registered user with preset id 4, used by the registry examples. -/
def exUser4 : User := ⟨4, true, [9]⟩

/-- A concrete well-formed manager: one user (id 4), one machine (id 1). -/
def gmPersist : GridManager := ⟨[(4, exUser4)], [(1, exM1)]⟩

/-- A second user carrying preset id 4, overwriting `exUser4`. -/
def exUser4b : User := ⟨4, false, []⟩

/-- A sequence of `AddUser` calls, collecting the returned ids in call
order. -/
def addUsersSeq : GridManager → Counters → List User → GridManager × Counters × List Nat
  | gm, c, [] => (gm, c, [])
  | gm, c, u :: us =>
    let r := gm.AddUser c (some u)
    let s := addUsersSeq r.1 r.2.1 us
    (s.1, s.2.1, r.2.2 :: s.2.2)

/-- A sequence of `AddMachine` calls, collecting the returned ids in call
order. -/
def addMachinesSeq : GridManager → Counters → List Machine → GridManager × Counters × List Nat
  | gm, c, [] => (gm, c, [])
  | gm, c, m :: ms =>
    let r := gm.AddMachine c (some m)
    let s := addMachinesSeq r.1 r.2.1 ms
    (s.1, s.2.1, r.2.2 :: s.2.2)

/-- The spec's counter invariant: every id registered in a collection is
bounded by the corresponding counter. -/
def countersInv (gm : GridManager) (c : Counters) : Prop :=
  (∀ p ∈ gm.users, p.1 ≤ c.lastUserId) ∧ (∀ p ∈ gm.machines, p.1 ≤ c.lastMachineId)

instance (gm : GridManager) (c : Counters) : Decidable (countersInv gm c) := by
  unfold countersInv
  infer_instance


/-! ### Lemmas about the association-list model of `std::map` -/

theorem mapFind_mapInsert_self {α : Type} (k : Nat) (v : α) (l : List (Nat × α)) :
    mapFind k (mapInsert k v l) = some v := by
  induction l with
  | nil => simp [mapInsert, mapFind]
  | cons p rest ih =>
    obtain ⟨k', v'⟩ := p
    by_cases h1 : k < k'
    · simp [mapInsert, h1, mapFind]
    · by_cases h2 : k = k'
      · simp [mapInsert, h1, h2, mapFind]
      · simp [mapInsert, h1, h2, mapFind, ih]

theorem mem_mapInsert {α : Type} {q : Nat × α} {k : Nat} {v : α} {l : List (Nat × α)}
    (h : q ∈ mapInsert k v l) : q = (k, v) ∨ q ∈ l := by
  induction l with
  | nil => simpa [mapInsert] using h
  | cons p rest ih =>
    obtain ⟨k', v'⟩ := p
    by_cases h1 : k < k'
    · simp only [mapInsert, if_pos h1] at h
      rcases List.mem_cons.mp h with h | h
      · exact Or.inl h
      · exact Or.inr h
    · by_cases h2 : k = k'
      · simp only [mapInsert, if_neg h1, if_pos h2] at h
        rcases List.mem_cons.mp h with h | h
        · exact Or.inl h
        · exact Or.inr (List.mem_cons_of_mem _ h)
      · simp only [mapInsert, if_neg h1, if_neg h2] at h
        rcases List.mem_cons.mp h with h | h
        · exact Or.inr (by simp [h])
        · rcases ih h with h' | h'
          · exact Or.inl h'
          · exact Or.inr (List.mem_cons_of_mem _ h')

theorem mem_mapErase {α : Type} {q : Nat × α} {k : Nat} {l : List (Nat × α)}
    (h : q ∈ mapErase k l) : q ∈ l := by
  induction l with
  | nil => simp [mapErase] at h
  | cons p rest ih =>
    obtain ⟨k', v'⟩ := p
    by_cases h1 : k = k'
    · simp only [mapErase, if_pos h1] at h
      exact List.mem_cons_of_mem _ h
    · simp only [mapErase, if_neg h1] at h
      rcases List.mem_cons.mp h with h | h
      · simp [h]
      · exact List.mem_cons_of_mem _ (ih h)

theorem mapFind_eq_none_of_not_mem {α : Type} {k : Nat} {l : List (Nat × α)}
    (h : k ∉ mapKeys l) : mapFind k l = none := by
  induction l with
  | nil => simp [mapFind]
  | cons p rest ih =>
    obtain ⟨k', v'⟩ := p
    simp only [mapKeys, List.map_cons, List.mem_cons] at h
    push_neg at h
    simp only [mapFind, if_neg h.1]
    exact ih (by simpa [mapKeys] using h.2)

theorem mapFind_mapErase_self {α : Type} (k : Nat) (l : List (Nat × α))
    (hs : mapSorted l) : mapFind k (mapErase k l) = none := by
  induction l with
  | nil => simp [mapErase, mapFind]
  | cons p rest ih =>
    obtain ⟨k', v'⟩ := p
    simp only [mapSorted, mapKeys, List.map_cons, List.pairwise_cons] at hs
    by_cases h1 : k = k'
    · simp only [mapErase, if_pos h1]
      refine mapFind_eq_none_of_not_mem ?_
      intro hk
      exact absurd (h1 ▸ hs.1 k hk) (lt_irrefl k)
    · simp only [mapErase, if_neg h1, mapFind, if_neg h1]
      exact ih hs.2

theorem mapKeys_mapInsert_mem {α : Type} {k : Nat} (v : α) {l : List (Nat × α)}
    (hs : mapSorted l) (h : k ∈ mapKeys l) :
    mapKeys (mapInsert k v l) = mapKeys l := by
  induction l with
  | nil => simp [mapKeys] at h
  | cons p rest ih =>
    obtain ⟨k', v'⟩ := p
    simp only [mapSorted, mapKeys, List.map_cons, List.pairwise_cons] at hs
    simp only [mapKeys, List.map_cons, List.mem_cons] at h
    by_cases h1 : k < k'
    · exfalso
      rcases h with h | h
      · exact absurd (h ▸ h1) (lt_irrefl k)
      · exact absurd (hs.1 k h) (lt_asymm h1)
    · by_cases h2 : k = k'
      · simp [mapInsert, if_neg h1, if_pos h2, mapKeys, h2]
      · rcases h with h | h
        · exact absurd h h2
        · simp only [mapInsert, if_neg h1, if_neg h2, mapKeys, List.map_cons]
          exact congrArg (k' :: ·) (ih hs.2 h)

theorem mapInsert_eq_append {α : Type} {k : Nat} (v : α) {l : List (Nat × α)}
    (h : ∀ x ∈ mapKeys l, x < k) : mapInsert k v l = l ++ [(k, v)] := by
  induction l with
  | nil => simp [mapInsert]
  | cons p rest ih =>
    obtain ⟨k', v'⟩ := p
    simp only [mapKeys, List.map_cons, List.mem_cons] at h
    have hk' : k' < k := h k' (Or.inl rfl)
    have h1 : ¬ k < k' := lt_asymm hk'
    have h2 : ¬ k = k' := fun e => absurd (e ▸ hk') (lt_irrefl k')
    simp only [mapInsert, if_neg h1, if_neg h2, List.cons_append]
    exact congrArg ((k', v') :: ·) (ih fun x hx => h x (Or.inr hx))

theorem mapInsert_eq_map {α : Type} {k : Nat} {v : α} (v' : α) {l : List (Nat × α)}
    (hs : mapSorted l) (hmem : (k, v) ∈ l) :
    mapInsert k v' l = l.map (fun p => if p.1 = k then (k, v') else p) := by
  induction l with
  | nil => simp at hmem
  | cons p rest ih =>
    obtain ⟨k', v''⟩ := p
    simp only [mapSorted, mapKeys, List.map_cons, List.pairwise_cons] at hs
    rcases List.mem_cons.mp hmem with h | h
    · cases h
      have hmap : rest.map (fun p => if p.1 = k then (k, v') else p) = rest := by
        refine (List.map_congr_left ?_).trans (List.map_id rest)
        intro q hq
        have hlt : k < q.1 := hs.1 q.1 (List.mem_map_of_mem Prod.fst hq)
        have hne : q.1 ≠ k := Nat.ne_of_gt hlt
        simp [hne]
      simp [mapInsert, hmap]
    · have hk : k' < k := hs.1 k (List.mem_map_of_mem Prod.fst h)
      have h1 : ¬ k < k' := lt_asymm hk
      have h2 : ¬ k = k' := fun e => absurd (e ▸ hk) (lt_irrefl k')
      have hne : k' ≠ k := fun e => h2 e.symm
      simp only [mapInsert, if_neg h1, if_neg h2, List.map_cons, if_neg hne]
      exact congrArg ((k', v'') :: ·) (ih hs.2 h)

theorem filter_key_eq {α : Type} {k : Nat} {v : α} {l : List (Nat × α)}
    (hs : mapSorted l) (hmem : (k, v) ∈ l) :
    l.filter (fun p => p.1 == k) = [(k, v)] := by
  induction l with
  | nil => simp at hmem
  | cons p rest ih =>
    obtain ⟨k', v''⟩ := p
    simp only [mapSorted, mapKeys, List.map_cons, List.pairwise_cons] at hs
    rcases List.mem_cons.mp hmem with h | h
    · cases h
      have hnil : rest.filter (fun p => p.1 == k) = [] := by
        refine List.filter_eq_nil_iff.mpr ?_
        intro q hq
        have hlt : k < q.1 := hs.1 q.1 (List.mem_map_of_mem Prod.fst hq)
        simp [Nat.ne_of_gt hlt]
      simp [List.filter_cons, hnil]
    · have hk : k' < k := hs.1 k (List.mem_map_of_mem Prod.fst h)
      have hne : k' ≠ k := Nat.ne_of_lt hk
      simp only [List.filter_cons, beq_iff_eq, hne, if_false]
      exact ih hs.2 h

/-! ### The scheduler's ranking order -/

theorem insertByScore_perm (m : Machine) (l : List Machine) :
    (insertByScore m l).Perm (m :: l) := by
  induction l with
  | nil => simp [insertByScore]
  | cons x xs ih =>
    by_cases h : x.score > m.score
    · simp only [insertByScore, if_pos h]
      exact (ih.cons x).trans (List.Perm.swap m x xs)
    · simp [insertByScore, if_neg h]

theorem sortByScore_perm (l : List Machine) : (sortByScore l).Perm l := by
  induction l with
  | nil => simp [sortByScore]
  | cons x xs ih =>
    exact (insertByScore_perm x (sortByScore xs)).trans (ih.cons x)

theorem insertByScore_pairwise {m : Machine} {l : List Machine}
    (hl : l.Pairwise schedLt) (hid : ∀ y ∈ l, m.id < y.id) :
    (insertByScore m l).Pairwise schedLt := by
  induction l with
  | nil => simp [insertByScore, List.pairwise_cons]
  | cons x xs ih =>
    rcases List.pairwise_cons.mp hl with ⟨hx, hxs⟩
    by_cases h : x.score > m.score
    · simp only [insertByScore, if_pos h]
      refine List.pairwise_cons.mpr ⟨?_, ih hxs fun y hy => hid y (List.mem_cons_of_mem x hy)⟩
      intro z hz
      rcases List.mem_cons.mp ((insertByScore_perm m xs).mem_iff.mp hz) with hz' | hz'
      · subst hz'
        exact Or.inl h
      · exact hx z hz'
    · have hms : x.score ≤ m.score := le_of_not_lt h
      simp only [insertByScore, if_neg h]
      refine List.pairwise_cons.mpr ⟨?_, hl⟩
      intro z hz
      rcases List.mem_cons.mp hz with hz' | hz'
      · subst hz'
        rcases lt_or_eq_of_le hms with hlt | heq
        · exact Or.inl hlt
        · exact Or.inr ⟨heq.symm, hid z (List.mem_cons_self z xs)⟩
      · rcases hx z hz' with hlt | ⟨heq, _⟩
        · exact Or.inl (lt_of_lt_of_le hlt hms)
        · rcases lt_or_eq_of_le hms with hlt' | heq'
          · exact Or.inl (heq ▸ hlt')
          · exact Or.inr ⟨heq'.symm.trans heq, hid z (List.mem_cons_of_mem x hz')⟩

theorem sortByScore_pairwise {l : List Machine}
    (h : l.Pairwise fun a b => a.id < b.id) :
    (sortByScore l).Pairwise schedLt := by
  induction l with
  | nil => simp [sortByScore]
  | cons x xs ih =>
    rcases List.pairwise_cons.mp h with ⟨hx, hxs⟩
    exact insertByScore_pairwise (ih hxs)
      fun y hy => hx y ((sortByScore_perm xs).mem_iff.mp hy)

/-- In a well-formed registry, the machine values carry strictly
increasing ids in iteration order. -/
theorem machineList_pairwise_id {gm : GridManager} (hs : mapSorted gm.machines)
    (hid : ∀ p ∈ gm.machines, p.2.id = p.1) :
    gm.machineList.Pairwise fun a b => a.id < b.id := by
  have h0 : gm.machines.Pairwise fun p q => p.1 < q.1 :=
    List.pairwise_map.mp hs
  have h1 : gm.machines.Pairwise fun p q => p.2.id < q.2.id :=
    h0.imp_of_mem fun ha hb hab => by
      rw [hid _ ha, hid _ hb]
      exact hab
  exact List.pairwise_map.mpr h1

/-- The offer loop visits the machines of its argument in order: the
trace of offered ids is a prefix of the candidate ids. -/
theorem offerLoop_trace_front (j : Job) (l : List Machine) :
    (offerLoop j l).2 <+: l.map Machine.id := by
  induction l with
  | nil => simp [offerLoop]
  | cons m ms ih =>
    cases h : m.AddJob j with
    | some m' => simp [offerLoop, h]
    | none =>
      simp only [offerLoop, h, List.map_cons]
      exact (List.cons_prefix_cons).mpr ⟨rfl, ih⟩

/-- The trace of `AddJob` is the trace of the offer loop over the ranked
list. -/
theorem addJob_trace (gm : GridManager) (j : Job) :
    (gm.AddJob (some j)).2.2 = (offerLoop j (sortByScore gm.machineList)).2 := by
  unfold GridManager.AddJob
  cases h : offerLoop j (sortByScore gm.machineList) with
  | mk acc tr => cases acc <;> simp [h]

/-- If every machine in the list rejects, the loop reports failure having
offered to every machine in order. -/
theorem offerLoop_all_reject {j : Job} {l : List Machine}
    (h : ∀ m ∈ l, m.AddJob j = none) :
    offerLoop j l = (none, l.map Machine.id) := by
  induction l with
  | nil => simp [offerLoop]
  | cons m ms ih =>
    have hm := h m (List.mem_cons_self m ms)
    simp [offerLoop, hm, ih fun m' hm' => h m' (List.mem_cons_of_mem m hm')]

/-- If every machine before `m` rejects and `m` accepts, the loop stops at
`m`, having offered exactly to the machines before it and to `m`. -/
theorem offerLoop_first_accept {j : Job} {pre : List Machine} {m : Machine}
    (post : List Machine) {m' : Machine}
    (hpre : ∀ x ∈ pre, x.AddJob j = none) (hm : m.AddJob j = some m') :
    offerLoop j (pre ++ m :: post) = (some m', pre.map Machine.id ++ [m.id]) := by
  induction pre with
  | nil => simp [offerLoop, hm]
  | cons x xs ih =>
    have hx := hpre x (List.mem_cons_self x xs)
    simp [offerLoop, hx, ih fun y hy => hpre y (List.mem_cons_of_mem x hy)]

/-- Evaluation of `AddJob` when the offer loop found an acceptor: the acceptor is
written back into the registry under its id. -/
theorem addJob_of_offer_some {gm : GridManager} {j : Job} {m' : Machine}
    {tr : List Nat}
    (h : offerLoop j (sortByScore gm.machineList) = (some m', tr)) :
    gm.AddJob (some j)
      = ({ gm with machines := mapInsert m'.id m' gm.machines }, true, tr) := by
  have e : gm.AddJob (some j)
      = (match offerLoop j (sortByScore gm.machineList) with
         | (some m₁, tr₁) =>
           ({ gm with machines := mapInsert m₁.id m₁ gm.machines }, true, tr₁)
         | (none, tr₁) => (gm, false, tr₁)) := rfl
  rw [e, h]

/-- Evaluation of `AddJob` when the offer loop exhausted the ranked list: failure, no
state change. -/
theorem addJob_of_offer_none {gm : GridManager} {j : Job} {tr : List Nat}
    (h : offerLoop j (sortByScore gm.machineList) = (none, tr)) :
    gm.AddJob (some j) = (gm, false, tr) := by
  have e : gm.AddJob (some j)
      = (match offerLoop j (sortByScore gm.machineList) with
         | (some m₁, tr₁) =>
           ({ gm with machines := mapInsert m₁.id m₁ gm.machines }, true, tr₁)
         | (none, tr₁) => (gm, false, tr₁)) := rfl
  rw [e, h]

/-! ### Claim theorems: scheduler -/

/-- Claim C1: `AddJob` offers the job to machines in descending order of
the score `(maxJobs - currentJobs) + availableDiskSpace + availableRAM`,
machines with equal score being offered in ascending-id (registry
iteration) order: the ranked candidate list is a permutation of the
registry's machines ordered by `schedLt` (strictly higher score first,
ties by ascending id), the offer trace follows it in order, and in
particular for M1 (score 10), M2 (score 10), M3 (score 5) registered in
that order the offer order is M1, M2, M3. -/
theorem addJob_ranked_order (gm : GridManager) (j : Job)
    (hs : mapSorted gm.machines) (hid : ∀ p ∈ gm.machines, p.2.id = p.1) :
    (sortByScore gm.machineList).Perm gm.machineList
    ∧ (sortByScore gm.machineList).Pairwise schedLt
    ∧ (gm.AddJob (some j)).2.2 <+: (sortByScore gm.machineList).map Machine.id
    ∧ (gmRank.AddJob (some exJob)).2.2 = [1, 2, 3] := by
  refine ⟨sortByScore_perm _,
          sortByScore_pairwise (machineList_pairwise_id hs hid), ?_, by decide⟩
  rw [addJob_trace]
  exact offerLoop_trace_front j _

/-- Witness for C1 at the spec's own example. -/
theorem addJob_ranked_order_witness :
    (sortByScore gmRank.machineList).Perm gmRank.machineList
    ∧ (sortByScore gmRank.machineList).Pairwise schedLt
    ∧ (gmRank.AddJob (some exJob)).2.2 <+: (sortByScore gmRank.machineList).map Machine.id
    ∧ (gmRank.AddJob (some exJob)).2.2 = [1, 2, 3] :=
  addJob_ranked_order gmRank exJob (by decide) (by decide)

/-- Claim C2: `AddJob` commits to the first machine of the ranked order
that accepts: it returns success at the first acceptor, machines ranked
after it are never offered the job, and the job ends up held by exactly
that machine; if every machine rejects, it returns failure after offering
to all of them and no machine holds the job. -/
theorem addJob_first_acceptor (gm : GridManager) (j : Job)
    (hs : mapSorted gm.machines) (hid : ∀ p ∈ gm.machines, p.2.id = p.1)
    (hfresh : ∀ p ∈ gm.machines, mapFind j.id p.2.jobs = none) :
    (∀ pre m post m', sortByScore gm.machineList = pre ++ m :: post →
        (∀ x ∈ pre, x.AddJob j = none) → m.AddJob j = some m' →
        gm.AddJob (some j)
          = ({ gm with machines := mapInsert m.id m' gm.machines }, true,
             pre.map Machine.id ++ [m.id])
        ∧ holders { gm with machines := mapInsert m.id m' gm.machines } j = [m.id])
    ∧ ((∀ m ∈ sortByScore gm.machineList, m.AddJob j = none) →
        gm.AddJob (some j) = (gm, false, (sortByScore gm.machineList).map Machine.id)
        ∧ holders gm j = []) := by
  constructor
  · intro pre m post m' hdec hpre hacc
    -- the accepting machine keeps its id and gains the job in its map
    have hacc' := hacc
    unfold Machine.AddJob at hacc'
    by_cases hc : m.currentJobs < m.maxJobs
    case neg =>
      rw [if_neg hc] at hacc'
      exact Option.noConfusion hacc'
    case pos =>
      rw [if_pos hc] at hacc'
      have hm' : m' = { m with jobs := mapInsert j.id j m.jobs,
                               currentJobs := m.currentJobs + 1 } :=
        (Option.some.inj hacc').symm
      have hid' : m'.id = m.id := by rw [hm']
      have hjobs : m'.jobs = mapInsert j.id j m.jobs := by rw [hm']
      -- the accepting machine is a registry entry under its own id
      have hmem : (m.id, m) ∈ gm.machines := by
        have h1 : m ∈ gm.machineList := by
          have h2 : m ∈ sortByScore gm.machineList := by
            rw [hdec]
            exact List.mem_append_right pre (List.mem_cons_self m post)
          exact (sortByScore_perm gm.machineList).mem_iff.mp h2
        rcases List.mem_map.mp h1 with ⟨p, hp, hp2⟩
        have hk : p.1 = m.id := by
          rw [← hid p hp, hp2]
        have hpe : p = (m.id, m) := Prod.ext hk hp2
        rw [← hpe]
        exact hp
      have hoff : offerLoop j (sortByScore gm.machineList)
          = (some m', pre.map Machine.id ++ [m.id]) := by
        rw [hdec]
        exact offerLoop_first_accept post hpre hacc
      have heq := addJob_of_offer_some hoff
      rw [hid'] at heq
      refine ⟨heq, ?_⟩
      -- exactly the acceptor holds the job afterwards
      unfold holders
      have hrepl := mapInsert_eq_map (v := m) m' hs hmem
      rw [hrepl]
      rw [List.filter_map]
      have hfc : gm.machines.filter
            ((fun p => (mapFind j.id p.2.jobs).isSome)
              ∘ fun p => if p.1 = m.id then (m.id, m') else p)
          = gm.machines.filter fun p => p.1 == m.id := by
        refine List.filter_congr ?_
        intro p hp
        by_cases hpm : p.1 = m.id
        · simp [Function.comp, hpm, hjobs, mapFind_mapInsert_self]
        · simp [Function.comp, hpm, hfresh p hp]
      rw [hfc, filter_key_eq hs hmem]
      simp
  · intro hrej
    have heq := addJob_of_offer_none (offerLoop_all_reject hrej)
    refine ⟨heq, ?_⟩
    unfold holders
    have : gm.machines.filter (fun p => (mapFind j.id p.2.jobs).isSome) = [] := by
      refine List.filter_eq_nil_iff.mpr ?_
      intro p hp
      simp [hfresh p hp]
    rw [this]
    simp

/-- Witness for C2: in `gmFirst` the machines with ids 1 and 3 outrank
the acceptor (id 2) but reject, so the job commits to machine 2 and to it
alone. -/
theorem addJob_first_acceptor_witness :
    gmFirst.AddJob (some exJob)
      = ({ gmFirst with machines := mapInsert exAcc.id exAccUpd gmFirst.machines },
         true, [exM1, exM3].map Machine.id ++ [exAcc.id])
    ∧ holders { gmFirst with machines := mapInsert exAcc.id exAccUpd gmFirst.machines }
        exJob = [exAcc.id] :=
  (addJob_first_acceptor gmFirst exJob (by decide) (by decide) (by decide)).1
    [exM1, exM3] exAcc [] exAccUpd (by decide) (by decide) (by decide)

/-- Lemma: `AddJob` reports failure only without touching the manager. -/
theorem addJob_fail_eq {gm : GridManager} {j : Job} {gm' : GridManager}
    {tr : List Nat} (h : gm.AddJob (some j) = (gm', false, tr)) : gm' = gm := by
  cases ho : offerLoop j (sortByScore gm.machineList) with
  | mk acc tr₂ =>
    cases acc with
    | some m₁ =>
      rw [addJob_of_offer_some ho] at h
      exact absurd (congrArg (fun t => t.2.1) h) (by simp)
    | none =>
      rw [addJob_of_offer_none ho] at h
      have h1 := congrArg Prod.fst h
      simpa using h1.symm

/-- Claim C3: `AddJobByUser` fails on a null user or job with nothing
mutated; if `CanCreateJob` denies it fails with no machine offered the
job (empty offer trace), the manager untouched and `CreatedJob` not
invoked; `CreatedJob` is invoked exactly on successful placement (the
bookkeeping grows by the job, after placement); on placement failure the
user is untouched and the manager unchanged. -/
theorem addJobByUser_gating (gm : GridManager) (u : User) (j : Job) :
    gm.AddJobByUser none (some j) = (gm, none, false, [])
    ∧ gm.AddJobByUser none none = (gm, none, false, [])
    ∧ gm.AddJobByUser (some u) none = (gm, some u, false, [])
    ∧ (u.CanCreateJob j = false →
        gm.AddJobByUser (some u) (some j) = (gm, some u, false, []))
    ∧ (∀ gm' tr, u.CanCreateJob j = true → gm.AddJob (some j) = (gm', true, tr) →
        gm.AddJobByUser (some u) (some j) = (gm', some (u.CreatedJob j), true, tr)
        ∧ (u.CreatedJob j).createdJobs = u.createdJobs ++ [j.id])
    ∧ (∀ gm' tr, u.CanCreateJob j = true → gm.AddJob (some j) = (gm', false, tr) →
        gm.AddJobByUser (some u) (some j) = (gm, some u, false, tr)) := by
  refine ⟨rfl, rfl, rfl, ?_, ?_, ?_⟩
  · intro hcan
    simp [GridManager.AddJobByUser, hcan]
  · intro gm' tr hcan hadd
    constructor
    · simp [GridManager.AddJobByUser, hcan, hadd]
    · simp [User.CreatedJob]
  · intro gm' tr hcan hadd
    have hgm := addJob_fail_eq hadd
    subst hgm
    simp [GridManager.AddJobByUser, hcan, hadd]

/-- Witness for C3: the denying user causes failure with an empty offer
trace; the allowing user gets `CreatedJob` invoked on the placed job. -/
theorem addJobByUser_gating_witness :
    gmFirst.AddJobByUser (some exUserDeny) (some exJob)
      = (gmFirst, some exUserDeny, false, [])
    ∧ gmFirst.AddJobByUser (some exUserAllow) (some exJob)
      = (gmFirstUpd, some (exUserAllow.CreatedJob exJob), true, [1, 3, 2]) :=
  ⟨(addJobByUser_gating gmFirst exUserDeny exJob).2.2.2.1 rfl,
   ((addJobByUser_gating gmFirst exUserAllow exJob).2.2.2.2.1
      gmFirstUpd [1, 3, 2] rfl (by decide)).1⟩

/-- Claim C9: removing a present id succeeds and erases the entity, a
second removal of the same id fails and changes nothing, the removed id
then looks up as absent, and lookups of unknown ids report absent (the
operations are total). -/
theorem remove_get_contract (gm : GridManager) (n : Nat)
    (hsu : mapSorted gm.users) (hsm : mapSorted gm.machines) :
    (∀ u, mapFind n gm.users = some u →
        gm.RemoveUser n = ({ gm with users := mapErase n gm.users }, true)
        ∧ (gm.RemoveUser n).1.RemoveUser n = ((gm.RemoveUser n).1, false)
        ∧ (gm.RemoveUser n).1.GetUser n = none)
    ∧ (mapFind n gm.users = none →
        gm.RemoveUser n = (gm, false) ∧ gm.GetUser n = none)
    ∧ (∀ m, mapFind n gm.machines = some m →
        gm.RemoveMachine n = ({ gm with machines := mapErase n gm.machines }, true)
        ∧ (gm.RemoveMachine n).1.RemoveMachine n = ((gm.RemoveMachine n).1, false)
        ∧ (gm.RemoveMachine n).1.GetMachine n = none)
    ∧ (mapFind n gm.machines = none →
        gm.RemoveMachine n = (gm, false) ∧ gm.GetMachine n = none) := by
  refine ⟨?_, ?_, ?_, ?_⟩
  · intro u hu
    have h1 : gm.RemoveUser n = ({ gm with users := mapErase n gm.users }, true) := by
      unfold GridManager.RemoveUser
      rw [hu]
    have h2 : mapFind n (mapErase n gm.users) = none :=
      mapFind_mapErase_self n gm.users hsu
    refine ⟨h1, ?_, ?_⟩
    · rw [h1]
      simp [GridManager.RemoveUser, h2]
    · rw [h1]
      exact h2
  · intro hu
    refine ⟨?_, hu⟩
    unfold GridManager.RemoveUser
    rw [hu]
  · intro m hm
    have h1 : gm.RemoveMachine n = ({ gm with machines := mapErase n gm.machines }, true) := by
      unfold GridManager.RemoveMachine
      rw [hm]
    have h2 : mapFind n (mapErase n gm.machines) = none :=
      mapFind_mapErase_self n gm.machines hsm
    refine ⟨h1, ?_, ?_⟩
    · rw [h1]
      simp [GridManager.RemoveMachine, h2]
    · rw [h1]
      exact h2
  · intro hm
    refine ⟨?_, hm⟩
    unfold GridManager.RemoveMachine
    rw [hm]

/-- Witness for C9 on `gmPersist`: id 4 is a present user (remove
true-then-false, then absent) and an absent machine id. -/
theorem remove_get_contract_witness :
    (gmPersist.RemoveUser 4 = ({ gmPersist with users := mapErase 4 gmPersist.users }, true)
     ∧ (gmPersist.RemoveUser 4).1.RemoveUser 4 = ((gmPersist.RemoveUser 4).1, false)
     ∧ (gmPersist.RemoveUser 4).1.GetUser 4 = none)
    ∧ (gmPersist.RemoveMachine 4 = (gmPersist, false) ∧ gmPersist.GetMachine 4 = none) :=
  ⟨(remove_get_contract gmPersist 4 (by decide) (by decide)).1 exUser4 (by decide),
   (remove_get_contract gmPersist 4 (by decide) (by decide)).2.2.2 (by decide)⟩

/-- Claim C7: `AddUser`/`AddMachine` with a nonzero preset id insert the
entity under that id verbatim and return it, without touching the
counters; an existing entry under that id is silently overwritten (the
new value is found there and the key set does not change); a null
argument returns sentinel id 0 with no state change. -/
theorem add_preset_verbatim (gm : GridManager) (c : Counters) (u : User)
    (m : Machine) (hu : u.id ≠ 0) (hm : m.id ≠ 0)
    (hsu : mapSorted gm.users) (hsm : mapSorted gm.machines) :
    gm.AddUser c (some u) = ({ gm with users := mapInsert u.id u gm.users }, c, u.id)
    ∧ mapFind u.id (mapInsert u.id u gm.users) = some u
    ∧ (u.id ∈ mapKeys gm.users →
        mapKeys (mapInsert u.id u gm.users) = mapKeys gm.users)
    ∧ gm.AddUser c none = (gm, c, 0)
    ∧ gm.AddMachine c (some m) = ({ gm with machines := mapInsert m.id m gm.machines }, c, m.id)
    ∧ mapFind m.id (mapInsert m.id m gm.machines) = some m
    ∧ (m.id ∈ mapKeys gm.machines →
        mapKeys (mapInsert m.id m gm.machines) = mapKeys gm.machines)
    ∧ gm.AddMachine c none = (gm, c, 0) := by
  refine ⟨?_, mapFind_mapInsert_self _ _ _,
          fun h => mapKeys_mapInsert_mem u hsu h, rfl, ?_,
          mapFind_mapInsert_self _ _ _,
          fun h => mapKeys_mapInsert_mem m hsm h, rfl⟩
  · simp [GridManager.AddUser, hu]
  · simp [GridManager.AddMachine, hm]

/-- Witness for C7: registering `exUser4b` (preset id 4) into
`gmPersist` overwrites the entry of id 4 silently. -/
theorem add_preset_verbatim_witness :
    gmPersist.AddUser ⟨9, 9⟩ (some exUser4b)
      = ({ gmPersist with users := mapInsert exUser4b.id exUser4b gmPersist.users }, ⟨9, 9⟩, exUser4b.id)
    ∧ mapFind exUser4b.id (mapInsert exUser4b.id exUser4b gmPersist.users) = some exUser4b
    ∧ (exUser4b.id ∈ mapKeys gmPersist.users →
        mapKeys (mapInsert exUser4b.id exUser4b gmPersist.users) = mapKeys gmPersist.users)
    ∧ gmPersist.AddUser ⟨9, 9⟩ none = (gmPersist, ⟨9, 9⟩, 0)
    ∧ gmPersist.AddMachine ⟨9, 9⟩ (some exM2)
      = ({ gmPersist with machines := mapInsert exM2.id exM2 gmPersist.machines }, ⟨9, 9⟩, exM2.id)
    ∧ mapFind exM2.id (mapInsert exM2.id exM2 gmPersist.machines) = some exM2
    ∧ (exM2.id ∈ mapKeys gmPersist.machines →
        mapKeys (mapInsert exM2.id exM2 gmPersist.machines) = mapKeys gmPersist.machines)
    ∧ gmPersist.AddMachine ⟨9, 9⟩ none = (gmPersist, ⟨9, 9⟩, 0) :=
  add_preset_verbatim gmPersist ⟨9, 9⟩ exUser4b exM2
    (by decide) (by decide) (by decide) (by decide)

/-- The fresh-id path of `AddUser`: counter incremented, entity stamped,
inserted under the new id, new id returned. -/
theorem addUser_fresh (gm : GridManager) (c : Counters) (u : User) (h : u.id = 0) :
    gm.AddUser c (some u)
      = ({ gm with users := mapInsert (c.lastUserId + 1) { u with id := c.lastUserId + 1 } gm.users },
         { c with lastUserId := c.lastUserId + 1 }, c.lastUserId + 1) := by
  simp [GridManager.AddUser, h]

/-- The fresh-id path of `AddMachine`. -/
theorem addMachine_fresh (gm : GridManager) (c : Counters) (m : Machine) (h : m.id = 0) :
    gm.AddMachine c (some m)
      = ({ gm with machines := mapInsert (c.lastMachineId + 1) { m with id := c.lastMachineId + 1 } gm.machines },
         { c with lastMachineId := c.lastMachineId + 1 }, c.lastMachineId + 1) := by
  simp [GridManager.AddMachine, h]

/-- Ids returned by a zero-id `AddUser` sequence are consecutive from the
counter, which advances by the number of calls. -/
theorem addUsersSeq_ids (us : List User) :
    ∀ (gm : GridManager) (c : Counters), (∀ u ∈ us, u.id = 0) →
      (addUsersSeq gm c us).2.2 = List.range' (c.lastUserId + 1) us.length
      ∧ (addUsersSeq gm c us).2.1.lastUserId = c.lastUserId + us.length := by
  induction us with
  | nil => intro gm c _; simp [addUsersSeq]
  | cons u us ih =>
    intro gm c h
    have hu : u.id = 0 := h u (List.mem_cons_self u us)
    have hrec := ih ({ gm with users := mapInsert (c.lastUserId + 1) { u with id := c.lastUserId + 1 } gm.users })
      ({ c with lastUserId := c.lastUserId + 1 })
      (fun v hv => h v (List.mem_cons_of_mem u hv))
    simp only [addUsersSeq, addUser_fresh gm c u hu]
    refine ⟨?_, ?_⟩
    · rw [hrec.1]
      simp [List.range'_succ, Nat.add_assoc]
    · rw [hrec.2]
      simp only [List.length_cons]
      show _ + 1 + _ = _
      omega

/-- Ids returned by a zero-id `AddMachine` sequence are consecutive from
the counter. -/
theorem addMachinesSeq_ids (ms : List Machine) :
    ∀ (gm : GridManager) (c : Counters), (∀ m ∈ ms, m.id = 0) →
      (addMachinesSeq gm c ms).2.2 = List.range' (c.lastMachineId + 1) ms.length
      ∧ (addMachinesSeq gm c ms).2.1.lastMachineId = c.lastMachineId + ms.length := by
  induction ms with
  | nil => intro gm c _; simp [addMachinesSeq]
  | cons m ms ih =>
    intro gm c h
    have hm : m.id = 0 := h m (List.mem_cons_self m ms)
    have hrec := ih ({ gm with machines := mapInsert (c.lastMachineId + 1) { m with id := c.lastMachineId + 1 } gm.machines })
      ({ c with lastMachineId := c.lastMachineId + 1 })
      (fun v hv => h v (List.mem_cons_of_mem m hv))
    simp only [addMachinesSeq, addMachine_fresh gm c m hm]
    refine ⟨?_, ?_⟩
    · rw [hrec.1]
      simp [List.range'_succ, Nat.add_assoc]
    · rw [hrec.2]
      simp only [List.length_cons]
      show _ + 1 + _ = _
      omega

/-- Claim C8: any sequence of `AddUser` (resp. `AddMachine`) calls on
zero-id entities returns the consecutive ids following the counter —
strictly increasing, never repeated — each equal to the counter after its
increment and stamped onto the stored entity. -/
theorem add_fresh_ids_monotonic (gm : GridManager) (c : Counters)
    (us : List User) (ms : List Machine)
    (hu : ∀ u ∈ us, u.id = 0) (hm : ∀ m ∈ ms, m.id = 0) :
    (addUsersSeq gm c us).2.2 = List.range' (c.lastUserId + 1) us.length
    ∧ (addUsersSeq gm c us).2.2.Pairwise (· < ·)
    ∧ (addUsersSeq gm c us).2.2.Nodup
    ∧ (∀ (gm₀ : GridManager) (c₀ : Counters) (u₀ : User), u₀.id = 0 →
        gm₀.AddUser c₀ (some u₀)
          = ({ gm₀ with users := mapInsert (c₀.lastUserId + 1) { u₀ with id := c₀.lastUserId + 1 } gm₀.users },
             { c₀ with lastUserId := c₀.lastUserId + 1 }, c₀.lastUserId + 1))
    ∧ (addMachinesSeq gm c ms).2.2 = List.range' (c.lastMachineId + 1) ms.length
    ∧ (addMachinesSeq gm c ms).2.2.Pairwise (· < ·)
    ∧ (addMachinesSeq gm c ms).2.2.Nodup
    ∧ (∀ (gm₀ : GridManager) (c₀ : Counters) (m₀ : Machine), m₀.id = 0 →
        gm₀.AddMachine c₀ (some m₀)
          = ({ gm₀ with machines := mapInsert (c₀.lastMachineId + 1) { m₀ with id := c₀.lastMachineId + 1 } gm₀.machines },
             { c₀ with lastMachineId := c₀.lastMachineId + 1 }, c₀.lastMachineId + 1)) := by
  have hus := (addUsersSeq_ids us gm c hu).1
  have hms := (addMachinesSeq_ids ms gm c hm).1
  have hpu : (addUsersSeq gm c us).2.2.Pairwise (· < ·) := by
    rw [hus]
    exact List.pairwise_lt_range' _ _
  have hpm : (addMachinesSeq gm c ms).2.2.Pairwise (· < ·) := by
    rw [hms]
    exact List.pairwise_lt_range' _ _
  exact ⟨hus, hpu, hpu.imp Nat.ne_of_lt,
         fun gm₀ c₀ u₀ h₀ => addUser_fresh gm₀ c₀ u₀ h₀,
         hms, hpm, hpm.imp Nat.ne_of_lt,
         fun gm₀ c₀ m₀ h₀ => addMachine_fresh gm₀ c₀ m₀ h₀⟩

/-- Witness for C8: two fresh users and one fresh machine added after
counters (4, 3) receive ids 5, 6 and 4. -/
theorem add_fresh_ids_monotonic_witness :
    (addUsersSeq GridManager.empty ⟨4, 3⟩ [⟨0, true, []⟩, ⟨0, false, []⟩]).2.2
        = List.range' 5 2
    ∧ (addUsersSeq GridManager.empty ⟨4, 3⟩ [⟨0, true, []⟩, ⟨0, false, []⟩]).2.2.Pairwise (· < ·)
    ∧ (addMachinesSeq GridManager.empty ⟨4, 3⟩ [⟨0, 0, 1, 0, 0, 0, []⟩]).2.2
        = List.range' 4 1 := by
  have h := add_fresh_ids_monotonic GridManager.empty ⟨4, 3⟩
    [⟨0, true, []⟩, ⟨0, false, []⟩] [⟨0, 0, 1, 0, 0, 0, []⟩]
    (by decide) (by decide)
  exact ⟨h.1, h.2.1, h.2.2.2.2.1⟩

/-- Claim C10: the id counters are process-wide state shared by every
manager instance (static members), not per-manager fields: a zero-id
`AddUser` on one manager returning `n` is followed by `n + 1` from a
zero-id `AddUser` on a different manager; and the counters produced by a
`Load` govern the next id assigned through any live manager. -/
theorem counters_process_wide (gm1 gm2 gm3 : GridManager) (c : Counters)
    (u1 u2 u3 : User)
    (uLoad : List Nat → Option (User × List Nat))
    (mLoad : List Nat → Option (Machine × List Nat))
    (bb : List Nat) (gmL : GridManager) (cL : Counters)
    (h1 : u1.id = 0) (h2 : u2.id = 0) (h3 : u3.id = 0)
    (hL : GridManager.Load uLoad mLoad bb = some (gmL, cL)) :
    (gm1.AddUser c (some u1)).2.2 = c.lastUserId + 1
    ∧ (gm2.AddUser (gm1.AddUser c (some u1)).2.1 (some u2)).2.2 = c.lastUserId + 2
    ∧ ∃ gmL' cL', GridManager.Load uLoad mLoad bb = some (gmL', cL')
        ∧ (gm3.AddUser cL' (some u3)).2.2 = cL'.lastUserId + 1 := by
  refine ⟨by rw [addUser_fresh gm1 c u1 h1], ?_,
          ⟨gmL, cL, hL, by rw [addUser_fresh gm3 cL u3 h3]⟩⟩
  rw [addUser_fresh gm1 c u1 h1]
  show (gm2.AddUser { c with lastUserId := c.lastUserId + 1 } (some u2)).2.2 = _
  rw [addUser_fresh gm2 _ u2 h2]

/-- Witness for C10 with an explicit snapshot buffer (counters 4 and 3,
no entities). -/
theorem counters_process_wide_witness :
    (gmRank.AddUser ⟨7, 7⟩ (some ⟨0, true, []⟩)).2.2 = 8
    ∧ (gmFirst.AddUser (gmRank.AddUser ⟨7, 7⟩ (some ⟨0, true, []⟩)).2.1 (some ⟨0, false, []⟩)).2.2 = 9
    ∧ ∃ gmL' cL', GridManager.Load User.Load Machine.Load [4, 3, 0, 0] = some (gmL', cL')
        ∧ (gmPersist.AddUser cL' (some ⟨0, true, []⟩)).2.2 = cL'.lastUserId + 1 :=
  counters_process_wide gmRank gmFirst gmPersist ⟨7, 7⟩
    ⟨0, true, []⟩ ⟨0, false, []⟩ ⟨0, true, []⟩
    User.Load Machine.Load [4, 3, 0, 0] GridManager.empty ⟨4, 3⟩
    rfl rfl rfl (by decide)

/-! ### Snapshot codec lemmas -/

theorem readWords_append (xs rest : List Nat) :
    readWords xs.length (xs ++ rest) = some (xs, rest) := by
  induction xs with
  | nil => simp [readWords]
  | cons x xs ih => simp [readWords, ih, Option.bind]

/-- The concrete user codec round-trips every record. -/
theorem User_Load_Save (u : User) (rest : List Nat) :
    User.Load (User.Save u ++ rest) = some (u, rest) := by
  obtain ⟨uid, perm, js⟩ := u
  simp only [User.Save, User.Load, List.cons_append]
  rw [readWords_append]
  cases perm <;> rfl

theorem jobEntryLoad_save (p : Nat × Job) (rest : List Nat) :
    jobEntryLoad (jobEntrySave p ++ rest) = some (p, rest) := by
  obtain ⟨k, jid, jname⟩ := p
  rfl

/-- Decoding a count-prefixed repetition of records produced by a
round-tripping per-record codec recovers the records and the tail. -/
theorem loadMany_flatMap {α : Type} (loadOne : List Nat → Option (α × List Nat))
    (save : α → List Nat)
    (h : ∀ a rest, loadOne (save a ++ rest) = some (a, rest)) :
    ∀ (xs : List α) (rest : List Nat),
      loadMany loadOne xs.length (xs.flatMap save ++ rest) = some (xs, rest) := by
  intro xs
  induction xs with
  | nil => intro rest; simp [loadMany]
  | cons x xs ih =>
    intro rest
    simp only [List.flatMap_cons, List.length_cons, List.append_assoc, loadMany]
    rw [h x (xs.flatMap save ++ rest)]
    simp [Option.bind, ih rest]

/-- The concrete machine codec round-trips every record. -/
theorem Machine_Load_Save (m : Machine) (rest : List Nat) :
    Machine.Load (Machine.Save m ++ rest) = some (m, rest) := by
  obtain ⟨mid, mname, mx, cur, disk, ram, js⟩ := m
  simp only [Machine.Save, Machine.Load, List.cons_append]
  rw [loadMany_flatMap jobEntryLoad jobEntrySave jobEntryLoad_save js rest]
  rfl

/-- Variant of `loadMany_flatMap` for registry entries saved through
their value component. -/
theorem loadMany_flatMap_snd {α : Type} (loadOne : List Nat → Option (α × List Nat))
    (save : α → List Nat)
    (h : ∀ a rest, loadOne (save a ++ rest) = some (a, rest)) :
    ∀ (ps : List (Nat × α)) (rest : List Nat),
      loadMany loadOne ps.length ((ps.flatMap fun p => save p.2) ++ rest)
        = some (ps.map Prod.snd, rest) := by
  intro ps
  induction ps with
  | nil => intro rest; simp [loadMany]
  | cons p ps ih =>
    intro rest
    simp only [List.flatMap_cons, List.length_cons, List.append_assoc, loadMany,
               List.map_cons]
    rw [h p.2 ((ps.flatMap fun p => save p.2) ++ rest)]
    simp [Option.bind, ih rest]

/-- Replaying the users of a well-formed registry through the
reconstruction path of `AddUser` (preset nonzero ids, ascending) rebuilds
the registry list exactly and leaves the counters untouched. -/
theorem addAllUsers_rebuild (M : List (Nat × Machine)) (c : Counters) :
    ∀ (ps acc : List (Nat × User)),
      (∀ p ∈ ps, p.2.id = p.1 ∧ p.1 ≠ 0) →
      mapSorted (acc ++ ps) →
      addAllUsers ⟨acc, M⟩ c (ps.map Prod.snd) = (⟨acc ++ ps, M⟩, c) := by
  intro ps
  induction ps with
  | nil => intro acc _ _; simp [addAllUsers]
  | cons p ps ih =>
    intro acc h hs
    have hpid : p.2.id = p.1 := (h p (List.mem_cons_self p ps)).1
    have hnz : p.1 ≠ 0 := (h p (List.mem_cons_self p ps)).2
    have hstep : GridManager.AddUser ⟨acc, M⟩ c (some p.2)
        = (⟨mapInsert p.1 p.2 acc, M⟩, c, p.1) := by
      simp [GridManager.AddUser, hpid, hnz]
    have hkeys : ∀ x ∈ mapKeys acc, x < p.1 := by
      intro x hx
      have hp : (mapKeys acc ++ p.1 :: mapKeys ps).Pairwise (· < ·) := by
        simpa [mapSorted, mapKeys] using hs
      exact (List.pairwise_append.mp hp).2.2 x hx p.1 (by simp)
    have hins : mapInsert p.1 p.2 acc = acc ++ [(p.1, p.2)] :=
      mapInsert_eq_append p.2 hkeys
    have hs' : mapSorted ((acc ++ [p]) ++ ps) := by
      simpa [mapSorted, mapKeys] using hs
    have hrec := ih (acc ++ [p]) (fun q hq => h q (List.mem_cons_of_mem p hq)) hs'
    calc addAllUsers ⟨acc, M⟩ c ((p :: ps).map Prod.snd)
        = addAllUsers ⟨mapInsert p.1 p.2 acc, M⟩ c (ps.map Prod.snd) := by
          simp only [List.map_cons, addAllUsers, hstep]
      _ = addAllUsers ⟨acc ++ [p], M⟩ c (ps.map Prod.snd) := by rw [hins]
      _ = (⟨(acc ++ [p]) ++ ps, M⟩, c) := hrec
      _ = (⟨acc ++ p :: ps, M⟩, c) := by simp

/-- Replaying the machines of a well-formed registry through the
reconstruction path of `AddMachine` rebuilds the registry list exactly. -/
theorem addAllMachines_rebuild (U : List (Nat × User)) (c : Counters) :
    ∀ (ps acc : List (Nat × Machine)),
      (∀ p ∈ ps, p.2.id = p.1 ∧ p.1 ≠ 0) →
      mapSorted (acc ++ ps) →
      addAllMachines ⟨U, acc⟩ c (ps.map Prod.snd) = (⟨U, acc ++ ps⟩, c) := by
  intro ps
  induction ps with
  | nil => intro acc _ _; simp [addAllMachines]
  | cons p ps ih =>
    intro acc h hs
    have hpid : p.2.id = p.1 := (h p (List.mem_cons_self p ps)).1
    have hnz : p.1 ≠ 0 := (h p (List.mem_cons_self p ps)).2
    have hstep : GridManager.AddMachine ⟨U, acc⟩ c (some p.2)
        = (⟨U, mapInsert p.1 p.2 acc⟩, c, p.1) := by
      simp [GridManager.AddMachine, hpid, hnz]
    have hkeys : ∀ x ∈ mapKeys acc, x < p.1 := by
      intro x hx
      have hp : (mapKeys acc ++ p.1 :: mapKeys ps).Pairwise (· < ·) := by
        simpa [mapSorted, mapKeys] using hs
      exact (List.pairwise_append.mp hp).2.2 x hx p.1 (by simp)
    have hins : mapInsert p.1 p.2 acc = acc ++ [(p.1, p.2)] :=
      mapInsert_eq_append p.2 hkeys
    have hs' : mapSorted ((acc ++ [p]) ++ ps) := by
      simpa [mapSorted, mapKeys] using hs
    have hrec := ih (acc ++ [p]) (fun q hq => h q (List.mem_cons_of_mem p hq)) hs'
    calc addAllMachines ⟨U, acc⟩ c ((p :: ps).map Prod.snd)
        = addAllMachines ⟨U, mapInsert p.1 p.2 acc⟩ c (ps.map Prod.snd) := by
          simp only [List.map_cons, addAllMachines, hstep]
      _ = addAllMachines ⟨U, acc ++ [p]⟩ c (ps.map Prod.snd) := by rw [hins]
      _ = (⟨U, (acc ++ [p]) ++ ps⟩, c) := hrec
      _ = (⟨U, acc ++ p :: ps⟩, c) := by simp

/-- Round trip of the grid manager snapshot: loading a saved snapshot of
a well-formed manager (counters and entity counts each fitting in one
32-bit word, entity codecs round-tripping) reproduces the manager and the
counters exactly. -/
theorem Load_Save_eq (uSave : User → List Nat)
    (uLoad : List Nat → Option (User × List Nat))
    (mSave : Machine → List Nat)
    (mLoad : List Nat → Option (Machine × List Nat))
    (hu : ∀ u rest, uLoad (uSave u ++ rest) = some (u, rest))
    (hm : ∀ m rest, mLoad (mSave m ++ rest) = some (m, rest))
    (c : Counters) (gm : GridManager) (hwf : gm.wf)
    (hcu : c.lastUserId < 2 ^ 32) (hcm : c.lastMachineId < 2 ^ 32)
    (hnu : gm.users.length < 2 ^ 32) (hnm : gm.machines.length < 2 ^ 32) :
    GridManager.Load uLoad mLoad (GridManager.Save uSave mSave c gm)
      = some (gm, c) := by
  obtain ⟨hsu, hsm, hiu, him⟩ := hwf
  have hbuf : GridManager.Save uSave mSave c gm
      = c.lastUserId :: c.lastMachineId :: gm.users.length
        :: ((gm.users.flatMap fun p => uSave p.2)
            ++ gm.machines.length :: (gm.machines.flatMap fun p => mSave p.2)) := by
    simp [GridManager.Save, w32, Nat.mod_eq_of_lt]
    exact ⟨by omega, by omega, by omega, by omega⟩
  rw [hbuf]
  unfold GridManager.Load
  dsimp only
  rw [loadMany_flatMap_snd uLoad uSave hu gm.users
        (gm.machines.length :: (gm.machines.flatMap fun p => mSave p.2))]
  simp only [Option.bind_eq_bind, Option.some_bind]
  rw [show (gm.machines.flatMap fun p => mSave p.2)
        = (gm.machines.flatMap fun p => mSave p.2) ++ [] by simp]
  rw [loadMany_flatMap_snd mLoad mSave hm gm.machines []]
  simp only [Option.bind_eq_bind, Option.some_bind]
  have h1 : addAllUsers GridManager.empty ⟨c.lastUserId, c.lastMachineId⟩
        (gm.users.map Prod.snd) = (⟨gm.users, []⟩, ⟨c.lastUserId, c.lastMachineId⟩) := by
    have := addAllUsers_rebuild [] ⟨c.lastUserId, c.lastMachineId⟩ gm.users [] hiu
      (by simpa using hsu)
    simpa [GridManager.empty] using this
  have h2 : addAllMachines ⟨gm.users, []⟩ ⟨c.lastUserId, c.lastMachineId⟩
        (gm.machines.map Prod.snd) = (⟨gm.users, gm.machines⟩, ⟨c.lastUserId, c.lastMachineId⟩) := by
    have := addAllMachines_rebuild gm.users ⟨c.lastUserId, c.lastMachineId⟩
      gm.machines [] him (by simpa using hsm)
    simpa using this
  rw [h1, h2]

/-- Claim C4: the snapshot is written in the fixed order lastUserId,
lastMachineId, userCount, user records, machineCount, machine records;
and (assuming each entity's own Save/Load pair round-trips its record)
loading a saved well-formed manager reproduces the user ids, machine ids,
both counters, and both entity counts exactly (in fact the whole
state). -/
theorem save_load_roundtrip (uSave : User → List Nat)
    (uLoad : List Nat → Option (User × List Nat))
    (mSave : Machine → List Nat)
    (mLoad : List Nat → Option (Machine × List Nat))
    (hu : ∀ u rest, uLoad (uSave u ++ rest) = some (u, rest))
    (hm : ∀ m rest, mLoad (mSave m ++ rest) = some (m, rest))
    (c : Counters) (gm : GridManager) (hwf : gm.wf)
    (hcu : c.lastUserId < 2 ^ 32) (hcm : c.lastMachineId < 2 ^ 32)
    (hnu : gm.users.length < 2 ^ 32) (hnm : gm.machines.length < 2 ^ 32) :
    GridManager.Save uSave mSave c gm
      = w32 c.lastUserId ++ w32 c.lastMachineId ++ w32 gm.users.length
        ++ (gm.users.flatMap fun p => uSave p.2) ++ w32 gm.machines.length
        ++ (gm.machines.flatMap fun p => mSave p.2)
    ∧ GridManager.Load uLoad mLoad (GridManager.Save uSave mSave c gm)
        = some (gm, c)
    ∧ (GridManager.Load uLoad mLoad (GridManager.Save uSave mSave c gm)).map
        (fun r => (mapKeys r.1.users, mapKeys r.1.machines,
                   r.1.users.length, r.1.machines.length, r.2))
      = some (mapKeys gm.users, mapKeys gm.machines,
              gm.users.length, gm.machines.length, c) := by
  have hload := Load_Save_eq uSave uLoad mSave mLoad hu hm c gm hwf hcu hcm hnu hnm
  refine ⟨rfl, hload, ?_⟩
  rw [hload]
  rfl

/-- Witness for C4 with the concrete entity codecs on `gmPersist`. -/
theorem save_load_roundtrip_witness :
    GridManager.Load User.Load Machine.Load
        (GridManager.Save User.Save Machine.Save ⟨4, 3⟩ gmPersist)
      = some (gmPersist, ⟨4, 3⟩) :=
  (save_load_roundtrip User.Save User.Load Machine.Save Machine.Load
    User_Load_Save Machine_Load_Save ⟨4, 3⟩ gmPersist (by decide)
    (by decide) (by decide) (by decide) (by decide)).2.1

/-- Counterexample to C5 as stated: `AddUser` with preset id 5 on a fresh
manager (counter 0) — one of the registry operations the claim covers —
leaves a registered id strictly greater than `lastUserId` (the code does
not raise the counter on the preset-id path). -/
theorem counters_inv_counterexample :
    ¬ countersInv (GridManager.empty.AddUser ⟨0, 0⟩ (some ⟨5, true, []⟩)).1
        (GridManager.empty.AddUser ⟨0, 0⟩ (some ⟨5, true, []⟩)).2.1 := by
  decide

/-- Claim C5, amended: the counter invariant is preserved by `AddUser` and
`AddMachine` on a null or zero-id argument, by a preset-id registration
whose id does not exceed the counter, by both removals, and by
`Load(Save(·))` of a well-formed bounded state; a preset id above the
counter (possible, since that path never raises the counter) is excluded. -/
theorem counters_inv_preserved (gm : GridManager) (c : Counters)
    (h : countersInv gm c) :
    countersInv (gm.AddUser c none).1 (gm.AddUser c none).2.1
    ∧ (∀ u : User, u.id = 0 →
        countersInv (gm.AddUser c (some u)).1 (gm.AddUser c (some u)).2.1)
    ∧ (∀ u : User, u.id ≠ 0 → u.id ≤ c.lastUserId →
        countersInv (gm.AddUser c (some u)).1 (gm.AddUser c (some u)).2.1)
    ∧ countersInv (gm.AddMachine c none).1 (gm.AddMachine c none).2.1
    ∧ (∀ m : Machine, m.id = 0 →
        countersInv (gm.AddMachine c (some m)).1 (gm.AddMachine c (some m)).2.1)
    ∧ (∀ m : Machine, m.id ≠ 0 → m.id ≤ c.lastMachineId →
        countersInv (gm.AddMachine c (some m)).1 (gm.AddMachine c (some m)).2.1)
    ∧ (∀ n, countersInv (gm.RemoveUser n).1 c)
    ∧ (∀ n, countersInv (gm.RemoveMachine n).1 c)
    ∧ (∀ (uSave : User → List Nat) (uLoad : List Nat → Option (User × List Nat))
         (mSave : Machine → List Nat) (mLoad : List Nat → Option (Machine × List Nat)),
        (∀ u rest, uLoad (uSave u ++ rest) = some (u, rest)) →
        (∀ m rest, mLoad (mSave m ++ rest) = some (m, rest)) →
        gm.wf → c.lastUserId < 2 ^ 32 → c.lastMachineId < 2 ^ 32 →
        gm.users.length < 2 ^ 32 → gm.machines.length < 2 ^ 32 →
        ∀ gmL cL,
          GridManager.Load uLoad mLoad (GridManager.Save uSave mSave c gm)
            = some (gmL, cL) →
          countersInv gmL cL) := by
  obtain ⟨h1, h2⟩ := h
  refine ⟨⟨h1, h2⟩, ?_, ?_, ⟨h1, h2⟩, ?_, ?_, ?_, ?_, ?_⟩
  · intro u hz
    rw [addUser_fresh gm c u hz]
    refine ⟨?_, fun p hp => h2 p hp⟩
    intro p hp
    rcases mem_mapInsert hp with he | hp'
    · rw [he]
    · exact Nat.le_succ_of_le (h1 p hp')
  · intro u hnz hle
    have he : gm.AddUser c (some u)
        = ({ gm with users := mapInsert u.id u gm.users }, c, u.id) := by
      simp [GridManager.AddUser, hnz]
    rw [he]
    refine ⟨?_, fun p hp => h2 p hp⟩
    intro p hp
    rcases mem_mapInsert hp with hpe | hp'
    · rw [hpe]
      exact hle
    · exact h1 p hp'
  · intro m hz
    rw [addMachine_fresh gm c m hz]
    refine ⟨fun p hp => h1 p hp, ?_⟩
    intro p hp
    rcases mem_mapInsert hp with he | hp'
    · rw [he]
    · exact Nat.le_succ_of_le (h2 p hp')
  · intro m hnz hle
    have he : gm.AddMachine c (some m)
        = ({ gm with machines := mapInsert m.id m gm.machines }, c, m.id) := by
      simp [GridManager.AddMachine, hnz]
    rw [he]
    refine ⟨fun p hp => h1 p hp, ?_⟩
    intro p hp
    rcases mem_mapInsert hp with hpe | hp'
    · rw [hpe]
      exact hle
    · exact h2 p hp'
  · intro n
    unfold GridManager.RemoveUser
    cases hf : mapFind n gm.users with
    | none => exact ⟨h1, h2⟩
    | some u => exact ⟨fun p hp => h1 p (mem_mapErase hp), h2⟩
  · intro n
    unfold GridManager.RemoveMachine
    cases hf : mapFind n gm.machines with
    | none => exact ⟨h1, h2⟩
    | some m => exact ⟨h1, fun p hp => h2 p (mem_mapErase hp)⟩
  · intro uSave uLoad mSave mLoad hu hm hwf hcu hcm hnu hnm gmL cL hL
    have := (Load_Save_eq uSave uLoad mSave mLoad hu hm c gm hwf hcu hcm hnu hnm).symm.trans hL
    have hp := Option.some.inj this
    obtain ⟨e1, e2⟩ := Prod.mk.injEq .. ▸ hp
    rw [← e1, ← e2]
    exact ⟨h1, h2⟩

/-- Witness for C5 (amended) on a concrete invariant-satisfying state. -/
theorem counters_inv_preserved_witness :
    countersInv (gmPersist.AddUser ⟨4, 3⟩ none).1 (gmPersist.AddUser ⟨4, 3⟩ none).2.1
    ∧ (∀ u : User, u.id = 0 →
        countersInv (gmPersist.AddUser ⟨4, 3⟩ (some u)).1 (gmPersist.AddUser ⟨4, 3⟩ (some u)).2.1)
    ∧ (∀ u : User, u.id ≠ 0 → u.id ≤ (4 : Nat) →
        countersInv (gmPersist.AddUser ⟨4, 3⟩ (some u)).1 (gmPersist.AddUser ⟨4, 3⟩ (some u)).2.1)
    ∧ countersInv (gmPersist.AddMachine ⟨4, 3⟩ none).1 (gmPersist.AddMachine ⟨4, 3⟩ none).2.1
    ∧ (∀ m : Machine, m.id = 0 →
        countersInv (gmPersist.AddMachine ⟨4, 3⟩ (some m)).1 (gmPersist.AddMachine ⟨4, 3⟩ (some m)).2.1)
    ∧ (∀ m : Machine, m.id ≠ 0 → m.id ≤ (3 : Nat) →
        countersInv (gmPersist.AddMachine ⟨4, 3⟩ (some m)).1 (gmPersist.AddMachine ⟨4, 3⟩ (some m)).2.1)
    ∧ (∀ n, countersInv (gmPersist.RemoveUser n).1 ⟨4, 3⟩)
    ∧ (∀ n, countersInv (gmPersist.RemoveMachine n).1 ⟨4, 3⟩)
    ∧ (∀ (uSave : User → List Nat) (uLoad : List Nat → Option (User × List Nat))
         (mSave : Machine → List Nat) (mLoad : List Nat → Option (Machine × List Nat)),
        (∀ u rest, uLoad (uSave u ++ rest) = some (u, rest)) →
        (∀ m rest, mLoad (mSave m ++ rest) = some (m, rest)) →
        gmPersist.wf → (4 : Nat) < 2 ^ 32 → (3 : Nat) < 2 ^ 32 →
        gmPersist.users.length < 2 ^ 32 → gmPersist.machines.length < 2 ^ 32 →
        ∀ gmL cL,
          GridManager.Load uLoad mLoad (GridManager.Save uSave mSave ⟨4, 3⟩ gmPersist)
            = some (gmL, cL) →
          countersInv gmL cL) :=
  counters_inv_preserved gmPersist ⟨4, 3⟩ (by decide)

/-- Counterexample to C6 as stated: on a manager with registered
entities, the generic query at an unsupported kind with the always-true
predicate silently returns the empty result set — the very outcome a
supported-kind query yields when nothing matches. -/
theorem applyPredicate_other_counterexample :
    gmPersist.ApplyPredicate .qother (fun _ => true) = []
    ∧ gmPersist.ApplyPredicate .quser (fun _ => false) = [] :=
  ⟨rfl, rfl⟩

/-- Claim C6, amended: instantiating `ApplyPredicate` at a kind other than
User, Machine or Job hits the primary template, which silently returns
the empty result set for every manager and predicate — indistinguishable
from a no-matches outcome. -/
theorem applyPredicate_other_empty (gm : GridManager) (p : Unit → Bool) :
    gm.ApplyPredicate .qother p = [] := rfl
